import Mathlib

set_option maxHeartbeats 1000000

/-
Verification of the pair style implemented in pair_dpd_jung.cpp.

Machine doubles are modelled as rationals; the C library square root
(a pure function on doubles) is modelled by an explicit function field
msqrt carried in the configuration, so every definition stays executable.
Neighbor-list entries carry the already-decoded special-bond scale factor
(the source decodes it from the packed index with sbmask/NEIGHMASK, which
lives outside this repository).
-/

namespace USERGLE

abbrev StateVec := ℕ → ℚ

def zeroVec : StateVec := fun _ => 0

def updf {α : Type} (f : ℕ → α) (k : ℕ) (v : α) : ℕ → α :=
  fun n => if n = k then v else f n

def upd2 {α : Type} (f : ℕ → ℕ → α) (a b : ℕ) (v : α) : ℕ → ℕ → α :=
  fun p q => if p = a ∧ q = b then v else f p q

def addAt (f : StateVec) (k : ℕ) (v : ℚ) : StateVec := updf f k (f k + v)

theorem addAt_apply (f : StateVec) (k : ℕ) (v : ℚ) (m : ℕ) :
    addAt f k v m = f m + (if m = k then v else 0) := by
  by_cases h : m = k <;> simp [addAt, updf, h]

/-- EPSILON from line 40 of the source: 1.0e-10. -/
def EPSILON : ℚ := 1 / 10 ^ 10

/-- One decoded neighbor-list entry: the neighbor index and the
special-bond factor special_lj[sbmask(j)]. -/
structure NeighEntry where
  j : ℕ
  factor : ℚ
deriving DecidableEq

/-- The ambient data read by the pair style: atom arrays, parameter
tables, global settings, the neighbor list, and the modelled machine
square root. -/
structure Cfg where
  nlocal : ℕ
  ntypes : ℕ
  x : ℕ → ℕ → ℚ
  v : ℕ → ℕ → ℚ
  type : ℕ → ℕ
  tag : ℕ → ℕ
  setflag : ℕ → ℕ → Bool
  cut : ℕ → ℕ → ℚ
  cutsq : ℕ → ℕ → ℚ
  a0 : ℕ → ℕ → ℚ
  gamma : ℕ → ℕ → ℚ
  sigma : ℕ → ℕ → ℚ
  rand : ℕ → ℚ
  newton : Bool
  dt : ℚ
  msqrt : ℚ → ℚ
  boltz : ℚ
  temperature : ℚ
  cut_global : ℚ
  seed : ℤ
  mix_flag : ℤ
  ilist : List ℕ
  neigh : ℕ → List NeighEntry

/-- tag[i]-1, the 0-based tag used to index state vectors. -/
def tag0 (cfg : Cfg) (i : ℕ) : ℕ := cfg.tag i - 1

/-- delx, dely, delz: component c of x[i] - x[j]. -/
def delOf (cfg : Cfg) (i j c : ℕ) : ℚ := cfg.x i c - cfg.x j c

/-- rsq = delx*delx + dely*dely + delz*delz. -/
def rsqOf (cfg : Cfg) (i j : ℕ) : ℚ :=
  delOf cfg i j 0 * delOf cfg i j 0 + delOf cfg i j 1 * delOf cfg i j 1 +
    delOf cfg i j 2 * delOf cfg i j 2

/-- r = sqrt(rsq), through the modelled machine square root. -/
def rOf (cfg : Cfg) (i j : ℕ) : ℚ := cfg.msqrt (rsqOf cfg i j)

/-- rinv = 1.0/r. -/
def rinvOf (cfg : Cfg) (i j : ℕ) : ℚ := 1 / rOf cfg i j

/-- wd = 1.0 - r/cut[itype][jtype]. -/
def wdOf (cfg : Cfg) (i j : ℕ) : ℚ :=
  1 - rOf cfg i j / cfg.cut (cfg.type i) (cfg.type j)

/-- pre = -update->dt / 2.0 (step mode). -/
def preOf (cfg : Cfg) : ℚ := -cfg.dt / 2

/-- dtinvsqrt = 1.0/sqrt(update->dt) (full mode). -/
def dtinvsqrtOf (cfg : Cfg) : ℚ := 1 / cfg.msqrt cfg.dt

/-- dot = delx*delvx + dely*delvy + delz*delvz in compute_step, where the
i-side velocity is read at the LOCAL index i (vxtmp = input[3*i]) while
the j-side is read at the tag index jtag, exactly as in the source. -/
def stepDot (cfg : Cfg) (input : StateVec) (i j : ℕ) : ℚ :=
  delOf cfg i j 0 * (input (3 * i) - input (3 * tag0 cfg j)) +
    delOf cfg i j 1 * (input (3 * i + 1) - input (3 * tag0 cfg j + 1)) +
    delOf cfg i j 2 * (input (3 * i + 2) - input (3 * tag0 cfg j + 2))

/-- fpair of compute_step:
fpair = -gamma*wd*wd*dot*rinv, then fpair *= pre*factor_dpd*rinv. -/
def stepFpair (cfg : Cfg) (input : StateVec) (i : ℕ) (e : NeighEntry) : ℚ :=
  -cfg.gamma (cfg.type i) (cfg.type e.j) * wdOf cfg i e.j * wdOf cfg i e.j *
      stepDot cfg input i e.j * rinvOf cfg i e.j *
    (preOf cfg * e.factor * rinvOf cfg i e.j)

/-- The body of the inner neighbor loop of compute_step (lines 513-546):
cutoff test, degeneracy skip, then sign-symmetric accumulation into the
output buffer, with the j side guarded by newton_pair || j < nlocal. -/
def stepPair (cfg : Cfg) (input : StateVec) (i : ℕ) (e : NeighEntry)
    (out : StateVec) : StateVec :=
  if rsqOf cfg i e.j < cfg.cutsq (cfg.type i) (cfg.type e.j) then
    if rOf cfg i e.j < EPSILON then out
    else
      let fp := stepFpair cfg input i e
      let o1 := addAt out (3 * tag0 cfg i) (delOf cfg i e.j 0 * fp)
      let o2 := addAt o1 (3 * tag0 cfg i + 1) (delOf cfg i e.j 1 * fp)
      let o3 := addAt o2 (3 * tag0 cfg i + 2) (delOf cfg i e.j 2 * fp)
      if cfg.newton = true ∨ e.j < cfg.nlocal then
        let o4 := addAt o3 (3 * tag0 cfg e.j) (-(delOf cfg i e.j 0 * fp))
        let o5 := addAt o4 (3 * tag0 cfg e.j + 1) (-(delOf cfg i e.j 1 * fp))
        addAt o5 (3 * tag0 cfg e.j + 2) (-(delOf cfg i e.j 2 * fp))
      else o3
  else out

/-- The body of the outer loop of compute_step for one owned atom i:
the unity-matrix contribution (lines 508-510) followed by the neighbor
loop. -/
def stepAtom (cfg : Cfg) (input : StateVec) (i : ℕ) (out : StateVec) :
    StateVec :=
  let o1 := addAt out (3 * tag0 cfg i) (input (3 * tag0 cfg i))
  let o2 := addAt o1 (3 * tag0 cfg i + 1) (input (3 * tag0 cfg i + 1))
  let o3 := addAt o2 (3 * tag0 cfg i + 2) (input (3 * tag0 cfg i + 2))
  (cfg.neigh i).foldl (fun o e => stepPair cfg input i e o) o3

/-- PairDPDJung::compute_step (lines 470-548): multiplies the input
vector with the interaction matrix, accumulating into the output
buffer. -/
def compute_step (cfg : Cfg) (input out : StateVec) : StateVec :=
  cfg.ilist.foldl (fun o i => stepAtom cfg input i o) out

/-- Pointwise amount added at index m by one stepPair call. -/
def stepPairAmt (cfg : Cfg) (input : StateVec) (i : ℕ) (e : NeighEntry)
    (m : ℕ) : ℚ :=
  if rsqOf cfg i e.j < cfg.cutsq (cfg.type i) (cfg.type e.j) ∧
      ¬ rOf cfg i e.j < EPSILON then
    (if m = 3 * tag0 cfg i then delOf cfg i e.j 0 * stepFpair cfg input i e else 0) +
    (if m = 3 * tag0 cfg i + 1 then delOf cfg i e.j 1 * stepFpair cfg input i e else 0) +
    (if m = 3 * tag0 cfg i + 2 then delOf cfg i e.j 2 * stepFpair cfg input i e else 0) +
    (if cfg.newton = true ∨ e.j < cfg.nlocal then
      (if m = 3 * tag0 cfg e.j then -(delOf cfg i e.j 0 * stepFpair cfg input i e) else 0) +
      (if m = 3 * tag0 cfg e.j + 1 then -(delOf cfg i e.j 1 * stepFpair cfg input i e) else 0) +
      (if m = 3 * tag0 cfg e.j + 2 then -(delOf cfg i e.j 2 * stepFpair cfg input i e) else 0)
    else 0)
  else 0

theorem stepPair_apply (cfg : Cfg) (input : StateVec) (i : ℕ) (e : NeighEntry)
    (out : StateVec) (m : ℕ) :
    stepPair cfg input i e out m = out m + stepPairAmt cfg input i e m := by
  unfold stepPair stepPairAmt
  by_cases h1 : rsqOf cfg i e.j < cfg.cutsq (cfg.type i) (cfg.type e.j)
  · by_cases h2 : rOf cfg i e.j < EPSILON
    · simp [h1, h2]
    · by_cases h3 : cfg.newton = true ∨ e.j < cfg.nlocal
      · simp only [if_pos h1, if_neg h2, if_pos h3, if_pos (And.intro h1 h2)]
        simp only [addAt_apply]
        ring
      · simp only [if_pos h1, if_neg h2, if_neg h3, if_pos (And.intro h1 h2)]
        simp only [addAt_apply]
        ring
  · simp [h1]

/-- Pointwise amount added at index m by the unity-matrix part of one
outer-loop iteration. -/
def identAmt (cfg : Cfg) (input : StateVec) (i m : ℕ) : ℚ :=
  (if m = 3 * tag0 cfg i then input m else 0) +
  (if m = 3 * tag0 cfg i + 1 then input m else 0) +
  (if m = 3 * tag0 cfg i + 2 then input m else 0)

/-- Pointwise amount added at index m by one outer-loop iteration. -/
def stepAtomAmt (cfg : Cfg) (input : StateVec) (i m : ℕ) : ℚ :=
  identAmt cfg input i m +
    ((cfg.neigh i).map (fun e => stepPairAmt cfg input i e m)).sum

theorem foldPair_apply (cfg : Cfg) (input : StateVec) (i : ℕ)
    (L : List NeighEntry) (out : StateVec) (m : ℕ) :
    (L.foldl (fun o e => stepPair cfg input i e o) out) m =
      out m + (L.map (fun e => stepPairAmt cfg input i e m)).sum := by
  induction L generalizing out with
  | nil => simp
  | cons e L ih =>
    simp only [List.foldl_cons, List.map_cons, List.sum_cons]
    rw [ih, stepPair_apply]
    ring

theorem stepAtom_apply (cfg : Cfg) (input : StateVec) (i : ℕ)
    (out : StateVec) (m : ℕ) :
    stepAtom cfg input i out m = out m + stepAtomAmt cfg input i m := by
  unfold stepAtom stepAtomAmt identAmt
  rw [foldPair_apply]
  simp only [addAt_apply]
  have h1 : (if m = 3 * tag0 cfg i then input (3 * tag0 cfg i) else 0) =
      (if m = 3 * tag0 cfg i then input m else 0) := by
    by_cases h : m = 3 * tag0 cfg i <;> simp [h]
  have h2 : (if m = 3 * tag0 cfg i + 1 then input (3 * tag0 cfg i + 1) else 0) =
      (if m = 3 * tag0 cfg i + 1 then input m else 0) := by
    by_cases h : m = 3 * tag0 cfg i + 1 <;> simp [h]
  have h3 : (if m = 3 * tag0 cfg i + 2 then input (3 * tag0 cfg i + 2) else 0) =
      (if m = 3 * tag0 cfg i + 2 then input m else 0) := by
    by_cases h : m = 3 * tag0 cfg i + 2 <;> simp [h]
  rw [h1, h2, h3]
  ring

theorem compute_step_apply (cfg : Cfg) (input out : StateVec) (m : ℕ) :
    compute_step cfg input out m =
      out m + (cfg.ilist.map (fun i => stepAtomAmt cfg input i m)).sum := by
  unfold compute_step
  generalize cfg.ilist = L
  induction L generalizing out with
  | nil => simp
  | cons i L ih =>
    simp only [List.foldl_cons, List.map_cons, List.sum_cons]
    rw [ih, stepAtom_apply]
    ring

/-- Claim C10: compute_step only accumulates into its output buffer; the
final content is the initial content plus the operator image of the input
(the image obtained from a zeroed buffer). -/
theorem C10_step_accumulates (cfg : Cfg) (input out : StateVec) (m : ℕ) :
    compute_step cfg input out m = out m + compute_step cfg input zeroVec m := by
  rw [compute_step_apply, compute_step_apply]
  simp [zeroVec]

theorem sum_map_add {α : Type} (L : List α) (f g : α → ℚ) :
    (L.map (fun a => f a + g a)).sum = (L.map f).sum + (L.map g).sum := by
  induction L with
  | nil => simp
  | cons a L ih =>
    simp only [List.map_cons, List.sum_cons, ih]
    ring

theorem sum_map_mul_left {α : Type} (L : List α) (c : ℚ) (f : α → ℚ) :
    (L.map (fun a => c * f a)).sum = c * (L.map f).sum := by
  induction L with
  | nil => simp
  | cons a L ih =>
    simp only [List.map_cons, List.sum_cons, ih]
    ring

theorem sum_map_zero {α : Type} (L : List α) :
    (L.map (fun _ => (0 : ℚ))).sum = 0 := by
  induction L with
  | nil => simp
  | cons a L ih => simp [ih]

theorem stepDot_linear (cfg : Cfg) (u v : StateVec) (c1 c2 : ℚ) (i j : ℕ) :
    stepDot cfg (fun n => c1 * u n + c2 * v n) i j =
      c1 * stepDot cfg u i j + c2 * stepDot cfg v i j := by
  unfold stepDot
  ring

theorem stepFpair_linear (cfg : Cfg) (u v : StateVec) (c1 c2 : ℚ) (i : ℕ)
    (e : NeighEntry) :
    stepFpair cfg (fun n => c1 * u n + c2 * v n) i e =
      c1 * stepFpair cfg u i e + c2 * stepFpair cfg v i e := by
  unfold stepFpair
  rw [stepDot_linear]
  ring

theorem stepPairAmt_linear (cfg : Cfg) (u v : StateVec) (c1 c2 : ℚ) (i : ℕ)
    (e : NeighEntry) (m : ℕ) :
    stepPairAmt cfg (fun n => c1 * u n + c2 * v n) i e m =
      c1 * stepPairAmt cfg u i e m + c2 * stepPairAmt cfg v i e m := by
  unfold stepPairAmt
  rw [stepFpair_linear]
  split_ifs <;> ring

theorem identAmt_linear (cfg : Cfg) (u v : StateVec) (c1 c2 : ℚ) (i m : ℕ) :
    identAmt cfg (fun n => c1 * u n + c2 * v n) i m =
      c1 * identAmt cfg u i m + c2 * identAmt cfg v i m := by
  unfold identAmt
  split_ifs <;> ring

theorem stepAtomAmt_linear (cfg : Cfg) (u v : StateVec) (c1 c2 : ℚ) (i m : ℕ) :
    stepAtomAmt cfg (fun n => c1 * u n + c2 * v n) i m =
      c1 * stepAtomAmt cfg u i m + c2 * stepAtomAmt cfg v i m := by
  unfold stepAtomAmt
  rw [identAmt_linear]
  have h : (cfg.neigh i).map
        (fun e => stepPairAmt cfg (fun n => c1 * u n + c2 * v n) i e m) =
      (cfg.neigh i).map
        (fun e => c1 * stepPairAmt cfg u i e m + c2 * stepPairAmt cfg v i e m) := by
    apply List.map_congr_left
    intro e _
    exact stepPairAmt_linear cfg u v c1 c2 i e m
  rw [h, sum_map_add, sum_map_mul_left, sum_map_mul_left]
  ring

theorem stepFpair_zero (cfg : Cfg) (i : ℕ) (e : NeighEntry) :
    stepFpair cfg zeroVec i e = 0 := by
  unfold stepFpair stepDot zeroVec
  ring

theorem stepPairAmt_zero (cfg : Cfg) (i : ℕ) (e : NeighEntry) (m : ℕ) :
    stepPairAmt cfg zeroVec i e m = 0 := by
  unfold stepPairAmt
  rw [stepFpair_zero]
  split_ifs <;> ring

theorem stepAtomAmt_zero (cfg : Cfg) (i m : ℕ) :
    stepAtomAmt cfg zeroVec i m = 0 := by
  unfold stepAtomAmt identAmt
  have h : (cfg.neigh i).map (fun e => stepPairAmt cfg zeroVec i e m) =
      (cfg.neigh i).map (fun _ => (0 : ℚ)) := by
    apply List.map_congr_left
    intro e _
    exact stepPairAmt_zero cfg i e m
  rw [h, sum_map_zero]
  simp [zeroVec]

/-- Claim C4: the step-mode operator is an exactly linear deterministic
function of its input state vector (in the rational model of the doubles),
it maps the zero vector to zero, and it does not read the true current
velocities of the atoms. -/
theorem C4_step_linear (cfg : Cfg) (u v : StateVec) (c1 c2 : ℚ)
    (vtrue : ℕ → ℕ → ℚ) (input out : StateVec) (m : ℕ) :
    compute_step cfg (fun n => c1 * u n + c2 * v n) zeroVec m =
        c1 * compute_step cfg u zeroVec m + c2 * compute_step cfg v zeroVec m
    ∧ compute_step cfg zeroVec zeroVec m = 0
    ∧ compute_step { cfg with v := vtrue } input out = compute_step cfg input out := by
  refine ⟨?_, ?_, rfl⟩
  · rw [compute_step_apply, compute_step_apply, compute_step_apply]
    have h : cfg.ilist.map
          (fun i => stepAtomAmt cfg (fun n => c1 * u n + c2 * v n) i m) =
        cfg.ilist.map
          (fun i => c1 * stepAtomAmt cfg u i m + c2 * stepAtomAmt cfg v i m) := by
      apply List.map_congr_left
      intro i _
      exact stepAtomAmt_linear cfg u v c1 c2 i m
    rw [h, sum_map_add, sum_map_mul_left, sum_map_mul_left]
    simp [zeroVec]
  · rw [compute_step_apply]
    have h : cfg.ilist.map (fun i => stepAtomAmt cfg zeroVec i m) =
        cfg.ilist.map (fun _ => (0 : ℚ)) := by
      apply List.map_congr_left
      intro i _
      exact stepAtomAmt_zero cfg i m
    rw [h, sum_map_zero]
    simp [zeroVec]

/-- Claim C1 formula, relative velocity: the claim reads the relative
velocity of a pair from the input state vector, which is indexed by
3*tag+component for both endpoints. -/
def specDelv (cfg : Cfg) (w : StateVec) (i j c : ℕ) : ℚ :=
  w (3 * tag0 cfg i + c) - w (3 * tag0 cfg j + c)

/-- Claim C1 formula, projection scalar: separation vector dotted with the
tag-indexed relative velocity. -/
def specDot (cfg : Cfg) (w : StateVec) (i j : ℕ) : ℚ :=
  delOf cfg i j 0 * specDelv cfg w i j 0 + delOf cfg i j 1 * specDelv cfg w i j 1 +
    delOf cfg i j 2 * specDelv cfg w i j 2

/-- Claim C1 formula, component c of the pairwise friction force on i:
the relative velocity projected onto the unit separation vector, scaled
by -gamma * w^2 / r and by the pair scale factor. -/
def specForce (cfg : Cfg) (w : StateVec) (i : ℕ) (e : NeighEntry) (c : ℕ) : ℚ :=
  -cfg.gamma (cfg.type i) (cfg.type e.j) * wdOf cfg i e.j * wdOf cfg i e.j *
      specDot cfg w i e.j / rOf cfg i e.j * (delOf cfg i e.j c / rOf cfg i e.j) *
    e.factor

/-- Claim C1 formula, contribution of one in-cutoff neighbor pair to the
friction operator image at state index m, accumulated sign-symmetrically
into both endpoints exactly as in full mode. -/
def specGammaAmt (cfg : Cfg) (w : StateVec) (i : ℕ) (e : NeighEntry) (m : ℕ) : ℚ :=
  if rsqOf cfg i e.j < cfg.cutsq (cfg.type i) (cfg.type e.j) ∧
      ¬ rOf cfg i e.j < EPSILON then
    (if m = 3 * tag0 cfg i then specForce cfg w i e 0 else 0) +
    (if m = 3 * tag0 cfg i + 1 then specForce cfg w i e 1 else 0) +
    (if m = 3 * tag0 cfg i + 2 then specForce cfg w i e 2 else 0) +
    (if cfg.newton = true ∨ e.j < cfg.nlocal then
      (if m = 3 * tag0 cfg e.j then -specForce cfg w i e 0 else 0) +
      (if m = 3 * tag0 cfg e.j + 1 then -specForce cfg w i e 1 else 0) +
      (if m = 3 * tag0 cfg e.j + 2 then -specForce cfg w i e 2 else 0)
    else 0)
  else 0

/-- Claim C1 formula, the asserted operator image
(Identity - (dt/2) Gamma) applied to the input state vector. -/
def stepSpecImage (cfg : Cfg) (w : StateVec) (m : ℕ) : ℚ :=
  w m - cfg.dt / 2 *
    (cfg.ilist.map (fun i =>
      ((cfg.neigh i).map (fun e => specGammaAmt cfg w i e m)).sum)).sum

theorem stepPairAmt_spec (cfg : Cfg) (input : StateVec) (i : ℕ) (e : NeighEntry)
    (m : ℕ) (h : cfg.tag i = i + 1) :
    stepPairAmt cfg input i e m = preOf cfg * specGammaAmt cfg input i e m := by
  have ht : tag0 cfg i = i := by unfold tag0; omega
  unfold stepPairAmt specGammaAmt specForce specDot specDelv stepFpair stepDot rinvOf
  rw [ht]
  simp only [Nat.add_zero]
  split_ifs <;> ring

theorem identAmt_eq (cfg : Cfg) (input : StateVec) (i m : ℕ)
    (h : cfg.tag i = i + 1) :
    identAmt cfg input i m = if i = m / 3 then input m else 0 := by
  have ht : tag0 cfg i = i := by unfold tag0; omega
  unfold identAmt
  rw [ht]
  by_cases hi : i = m / 3
  · subst hi
    have hd : m % 3 = 0 ∨ m % 3 = 1 ∨ m % 3 = 2 := by omega
    rcases hd with h0 | h0 | h0
    · have e1 : m = 3 * (m / 3) := by omega
      have e2 : ¬ m = 3 * (m / 3) + 1 := by omega
      have e3 : ¬ m = 3 * (m / 3) + 2 := by omega
      rw [if_pos e1, if_neg e2, if_neg e3, if_pos rfl]
      ring
    · have e1 : ¬ m = 3 * (m / 3) := by omega
      have e2 : m = 3 * (m / 3) + 1 := by omega
      have e3 : ¬ m = 3 * (m / 3) + 2 := by omega
      rw [if_neg e1, if_pos e2, if_neg e3, if_pos rfl]
      ring
    · have e1 : ¬ m = 3 * (m / 3) := by omega
      have e2 : ¬ m = 3 * (m / 3) + 1 := by omega
      have e3 : m = 3 * (m / 3) + 2 := by omega
      rw [if_neg e1, if_neg e2, if_pos e3, if_pos rfl]
      ring
  · have e1 : ¬ m = 3 * i := by omega
    have e2 : ¬ m = 3 * i + 1 := by omega
    have e3 : ¬ m = 3 * i + 2 := by omega
    rw [if_neg e1, if_neg e2, if_neg e3, if_neg hi]
    ring

theorem sum_indicator_not_mem (L : List ℕ) (t : ℕ) (val : ℚ) (ht : t ∉ L) :
    (L.map (fun i => if i = t then val else 0)).sum = 0 := by
  induction L with
  | nil => simp
  | cons a L ih =>
    have ha : ¬ a = t := by
      intro h
      exact ht (h ▸ List.mem_cons_self a L)
    have hL : t ∉ L := fun h => ht (List.mem_cons_of_mem a h)
    simp only [List.map_cons, List.sum_cons, if_neg ha, ih hL]
    ring

theorem sum_indicator_nodup (L : List ℕ) (t : ℕ) (val : ℚ) (hnd : L.Nodup)
    (ht : t ∈ L) :
    (L.map (fun i => if i = t then val else 0)).sum = val := by
  induction L with
  | nil => simp at ht
  | cons a L ih =>
    rcases List.mem_cons.mp ht with h | h
    · have hL : t ∉ L := by
        subst h
        exact (List.nodup_cons.mp hnd).1
      simp only [List.map_cons, List.sum_cons, if_pos h.symm,
        sum_indicator_not_mem L t val hL]
      ring
    · have ha : ¬ a = t := by
        intro he
        subst he
        exact (List.nodup_cons.mp hnd).1 h
      simp only [List.map_cons, List.sum_cons, if_neg ha,
        ih (List.nodup_cons.mp hnd).2 h]
      ring

/-- Claim C1 as amended: when every owned atom in the neighbor list has
its tag equal to its local index plus one (so the local-index read
vxtmp = input[3*i] agrees with the tag-indexed state vector), and ilist
enumerates each owned particle exactly once, compute_step started from a
zeroed buffer produces exactly (Identity - (dt/2) Gamma) applied to the
input, with Gamma the pairwise projection operator of the claim. -/
theorem C1_step_operator (cfg : Cfg) (input : StateVec)
    (h1 : ∀ i ∈ cfg.ilist, cfg.tag i = i + 1) (h2 : cfg.ilist.Nodup)
    (h3 : ∀ m, m < cfg.nlocal → m ∈ cfg.ilist) (m : ℕ)
    (hm : m < 3 * cfg.nlocal) :
    compute_step cfg input zeroVec m = stepSpecImage cfg input m := by
  rw [compute_step_apply]
  unfold stepSpecImage
  simp only [stepAtomAmt]
  rw [sum_map_add]
  have hident : (cfg.ilist.map (fun i => identAmt cfg input i m)).sum = input m := by
    have hmap : cfg.ilist.map (fun i => identAmt cfg input i m) =
        cfg.ilist.map (fun i => if i = m / 3 then input m else 0) := by
      apply List.map_congr_left
      intro i hi
      exact identAmt_eq cfg input i m (h1 i hi)
    rw [hmap]
    exact sum_indicator_nodup cfg.ilist (m / 3) (input m) h2
      (h3 (m / 3) (by omega))
  have hpair : (cfg.ilist.map (fun i =>
        ((cfg.neigh i).map (fun e => stepPairAmt cfg input i e m)).sum)).sum =
      preOf cfg * (cfg.ilist.map (fun i =>
        ((cfg.neigh i).map (fun e => specGammaAmt cfg input i e m)).sum)).sum := by
    have hmap : cfg.ilist.map (fun i =>
          ((cfg.neigh i).map (fun e => stepPairAmt cfg input i e m)).sum) =
        cfg.ilist.map (fun i =>
          preOf cfg * ((cfg.neigh i).map (fun e => specGammaAmt cfg input i e m)).sum) := by
      apply List.map_congr_left
      intro i hi
      have hinner : (cfg.neigh i).map (fun e => stepPairAmt cfg input i e m) =
          (cfg.neigh i).map (fun e => preOf cfg * specGammaAmt cfg input i e m) := by
        apply List.map_congr_left
        intro e _
        exact stepPairAmt_spec cfg input i e m (h1 i hi)
      rw [hinner, sum_map_mul_left]
    rw [hmap, sum_map_mul_left]
  rw [hident, hpair]
  unfold preOf zeroVec
  ring

/-- Two owned particles with swapped tags (tag[0] = 2, tag[1] = 1), one
in-cutoff pair with friction 1. -/
def cfgC1 : Cfg where
  nlocal := 2
  ntypes := 1
  x := fun i c => if i = 1 ∧ c = 0 then 1 / 2 else 0
  v := fun _ _ => 0
  type := fun _ => 1
  tag := fun i => if i = 0 then 2 else 1
  setflag := fun _ _ => true
  cut := fun _ _ => 1
  cutsq := fun _ _ => 1
  a0 := fun _ _ => 0
  gamma := fun _ _ => 1
  sigma := fun _ _ => 0
  rand := fun _ => 0
  newton := true
  dt := 2
  msqrt := fun q => if q = 1 / 4 then 1 / 2 else 0
  boltz := 1
  temperature := 1
  cut_global := 1
  seed := 1
  mix_flag := 0
  ilist := [0, 1]
  neigh := fun i => if i = 0 then [⟨1, 1⟩] else []

def inputC1 : StateVec := fun n => if n = 0 then 1 else 0

/-- Claim C1 counterexample: with a permuted (still dense) tag labeling
the step-mode output differs from (Identity - (dt/2) Gamma) applied to
the input, because the source reads the i-side velocity at the local
index (input[3*i]) instead of the tag index. -/
theorem C1_counterexample :
    compute_step cfgC1 inputC1 zeroVec 0 ≠ stepSpecImage cfgC1 inputC1 0 := by
  have hL : compute_step cfgC1 inputC1 zeroVec 0 = 1 := by
    norm_num [compute_step, stepAtom, stepPair, stepFpair, stepDot, addAt, updf,
      rsqOf, rOf, rinvOf, wdOf, delOf, preOf, tag0, cfgC1, inputC1, zeroVec,
      EPSILON]
  have hR : stepSpecImage cfgC1 inputC1 0 = 5 / 4 := by
    norm_num [stepSpecImage, specGammaAmt, specForce, specDot, specDelv,
      rsqOf, rOf, rinvOf, wdOf, delOf, tag0, cfgC1, inputC1, EPSILON]
  rw [hL, hR]
  norm_num

/-- Identity-tag variant of cfgC1. -/
def cfgC1w : Cfg := { cfgC1 with tag := fun i => i + 1 }

/-- Witness for C1_step_operator at a concrete configuration. -/
theorem C1_step_operator_witness :
    (∀ i ∈ cfgC1w.ilist, cfgC1w.tag i = i + 1) ∧
      compute_step cfgC1w inputC1 zeroVec 0 = stepSpecImage cfgC1w inputC1 0 :=
  ⟨by decide, C1_step_operator cfgC1w inputC1 (by decide) (by decide)
    (by decide) 0 (by decide)⟩

/-- fpair of full-mode compute (lines 142-144):
fpair = a0*wd; fpair += sigma*wd*randnum*dtinvsqrt; fpair *= factor_dpd*rinv.
The Gaussian draw is the value randnum of the modelled random stream. -/
def computeFpair (cfg : Cfg) (i : ℕ) (e : NeighEntry) (randnum : ℚ) : ℚ :=
  (cfg.a0 (cfg.type i) (cfg.type e.j) * wdOf cfg i e.j +
      cfg.sigma (cfg.type i) (cfg.type e.j) * wdOf cfg i e.j * randnum *
        dtinvsqrtOf cfg) *
    (e.factor * rinvOf cfg i e.j)

/-- The body of the inner neighbor loop of full-mode compute
(lines 118-165): cutoff test, degeneracy skip, one Gaussian draw, then
sign-symmetric accumulation into f_step. The state threads the force
buffer together with the position in the random stream; the draw happens
after the degeneracy skip, exactly as in the source. The local variable
dot is computed from uninitialized delv values in the source and never
used, so it is not modelled. -/
def computePair (cfg : Cfg) (i : ℕ) (e : NeighEntry) (s : StateVec × ℕ) :
    StateVec × ℕ :=
  if rsqOf cfg i e.j < cfg.cutsq (cfg.type i) (cfg.type e.j) then
    if rOf cfg i e.j < EPSILON then s
    else
      let fp := computeFpair cfg i e (cfg.rand s.2)
      let o1 := addAt s.1 (3 * tag0 cfg i) (delOf cfg i e.j 0 * fp)
      let o2 := addAt o1 (3 * tag0 cfg i + 1) (delOf cfg i e.j 1 * fp)
      let o3 := addAt o2 (3 * tag0 cfg i + 2) (delOf cfg i e.j 2 * fp)
      if cfg.newton = true ∨ e.j < cfg.nlocal then
        let o4 := addAt o3 (3 * tag0 cfg e.j) (-(delOf cfg i e.j 0 * fp))
        let o5 := addAt o4 (3 * tag0 cfg e.j + 1) (-(delOf cfg i e.j 1 * fp))
        (addAt o5 (3 * tag0 cfg e.j + 2) (-(delOf cfg i e.j 2 * fp)), s.2 + 1)
      else (o3, s.2 + 1)
  else s

/-- The pairwise force accumulation loop of full-mode compute
(lines 103-167), started from a zeroed f_step buffer and position 0 of
the random stream. -/
def computeFsum (cfg : Cfg) : StateVec × ℕ :=
  cfg.ilist.foldl
    (fun s i => (cfg.neigh i).foldl (fun s2 e => computePair cfg i e s2) s)
    (zeroVec, 0)

/-- The post-loop semi-implicit scaling of full-mode compute
(lines 169-178). Each state index below 3*nlocal is written exactly once
by the source loop, so the loop is rendered pointwise. The velocity carry
reads component 0 of v[i] for all three rows, exactly as the source does
(f_step[3*i+1] and f_step[3*i+2] also add dt*v[i][0]). -/
def computeRhs (cfg : Cfg) : StateVec := fun m =>
  if m < 3 * cfg.nlocal then
    (computeFsum cfg).1 m * (cfg.dt * cfg.dt / 2) + cfg.dt * cfg.v (m / 3) 0
  else (computeFsum cfg).1 m

/-- Single particle with velocity (5, 7, 11), no neighbors, dt = 1. -/
def cfgC2 : Cfg where
  nlocal := 1
  ntypes := 1
  x := fun _ _ => 0
  v := fun _ c => if c = 0 then 5 else if c = 1 then 7 else 11
  type := fun _ => 1
  tag := fun i => i + 1
  setflag := fun _ _ => true
  cut := fun _ _ => 1
  cutsq := fun _ _ => 1
  a0 := fun _ _ => 0
  gamma := fun _ _ => 0
  sigma := fun _ _ => 0
  rand := fun _ => 0
  newton := true
  dt := 1
  msqrt := fun _ => 1
  boltz := 1
  temperature := 1
  cut_global := 1
  seed := 1
  mix_flag := 0
  ilist := [0]
  neigh := fun _ => []

/-- Claim C2 divergence, evaluated: with zero pairwise force the
right-hand-side entry at index 3*0+1 equals dt times velocity component 0
of the particle, not dt times the matching component 1 that the claim
asserts (the source adds dt*v[i][0] to all three components). -/
theorem C2_bug_eval :
    computeRhs cfgC2 1 = cfgC2.dt * cfgC2.v 0 0 ∧
      computeRhs cfgC2 1 ≠
        (computeFsum cfgC2).1 1 * (cfgC2.dt * cfgC2.dt / 2) +
          cfgC2.dt * cfgC2.v 0 1 := by
  have hf : (computeFsum cfgC2).1 1 = 0 := by
    norm_num [computeFsum, cfgC2, zeroVec]
  have hr : computeRhs cfgC2 1 = 5 := by
    simp only [computeRhs]
    rw [if_pos (show (1 : ℕ) < 3 * cfgC2.nlocal by norm_num [cfgC2]), hf]
    norm_num [cfgC2]
  rw [hr, hf]
  norm_num [cfgC2]

/-- Pointwise amount added at index m by one computePair call, together
with the number of Gaussian draws the call consumes. -/
def computePairAmt (cfg : Cfg) (i : ℕ) (e : NeighEntry) (cnt m : ℕ) : ℚ :=
  if rsqOf cfg i e.j < cfg.cutsq (cfg.type i) (cfg.type e.j) ∧
      ¬ rOf cfg i e.j < EPSILON then
    (if m = 3 * tag0 cfg i then delOf cfg i e.j 0 * computeFpair cfg i e (cfg.rand cnt) else 0) +
    (if m = 3 * tag0 cfg i + 1 then delOf cfg i e.j 1 * computeFpair cfg i e (cfg.rand cnt) else 0) +
    (if m = 3 * tag0 cfg i + 2 then delOf cfg i e.j 2 * computeFpair cfg i e (cfg.rand cnt) else 0) +
    (if cfg.newton = true ∨ e.j < cfg.nlocal then
      (if m = 3 * tag0 cfg e.j then -(delOf cfg i e.j 0 * computeFpair cfg i e (cfg.rand cnt)) else 0) +
      (if m = 3 * tag0 cfg e.j + 1 then -(delOf cfg i e.j 1 * computeFpair cfg i e (cfg.rand cnt)) else 0) +
      (if m = 3 * tag0 cfg e.j + 2 then -(delOf cfg i e.j 2 * computeFpair cfg i e (cfg.rand cnt)) else 0)
    else 0)
  else 0

theorem computePair_apply (cfg : Cfg) (i : ℕ) (e : NeighEntry)
    (out : StateVec) (cnt m : ℕ) :
    (computePair cfg i e (out, cnt)).1 m = out m + computePairAmt cfg i e cnt m := by
  unfold computePair computePairAmt
  by_cases h1 : rsqOf cfg i e.j < cfg.cutsq (cfg.type i) (cfg.type e.j)
  · by_cases h2 : rOf cfg i e.j < EPSILON
    · simp [h1, h2]
    · by_cases h3 : cfg.newton = true ∨ e.j < cfg.nlocal
      · simp only [if_pos h1, if_neg h2, if_pos h3, if_pos (And.intro h1 h2)]
        simp only [addAt_apply]
        ring
      · simp only [if_pos h1, if_neg h2, if_neg h3, if_pos (And.intro h1 h2)]
        simp only [addAt_apply]
        ring
  · simp [h1]

/-- Component selector used to evaluate the three-indicator sums. -/
def sel3 (c : ℕ) (A0 A1 A2 : ℚ) : ℚ :=
  if c = 0 then A0 else if c = 1 then A1 else A2

theorem sel3_neg (c : ℕ) (A0 A1 A2 : ℚ) :
    sel3 c (-A0) (-A1) (-A2) = -sel3 c A0 A1 A2 := by
  unfold sel3
  split_ifs <;> ring

theorem ind3 (t c : ℕ) (hc : c < 3) (A0 A1 A2 : ℚ) :
    (if 3 * t + c = 3 * t then A0 else 0) +
        (if 3 * t + c = 3 * t + 1 then A1 else 0) +
        (if 3 * t + c = 3 * t + 2 then A2 else 0) =
      sel3 c A0 A1 A2 := by
  have hd : c = 0 ∨ c = 1 ∨ c = 2 := by omega
  unfold sel3
  rcases hd with h | h | h <;> subst h
  · rw [if_pos (by omega), if_neg (by omega), if_neg (by omega),
      if_pos (by omega)]
    ring
  · rw [if_neg (by omega), if_pos (by omega), if_neg (by omega),
      if_neg (by omega), if_pos (by omega)]
    ring
  · rw [if_neg (by omega), if_neg (by omega), if_pos (by omega),
      if_neg (by omega), if_neg (by omega)]
    ring

theorem ind3_ne (t s c : ℕ) (hc : c < 3) (ht : t ≠ s) (A0 A1 A2 : ℚ) :
    (if 3 * t + c = 3 * s then A0 else 0) +
        (if 3 * t + c = 3 * s + 1 then A1 else 0) +
        (if 3 * t + c = 3 * s + 2 then A2 else 0) = 0 := by
  rw [if_neg (by omega), if_neg (by omega), if_neg (by omega)]
  ring

/-- Claim C6 as amended: for a pair processed by full-mode compute with
Newton pairing enabled or the neighbor locally owned, the amount
accumulated into the entries of particle j is the exact negation of the
amount accumulated into the entries of particle i, component by
component, for every force buffer, random-stream position and parameter
set. -/
theorem C6_newton_antisym (cfg : Cfg) (i : ℕ) (e : NeighEntry)
    (out : StateVec) (cnt c : ℕ)
    (hg : cfg.newton = true ∨ e.j < cfg.nlocal) (hc : c < 3) :
    (computePair cfg i e (out, cnt)).1 (3 * tag0 cfg e.j + c) -
        out (3 * tag0 cfg e.j + c) =
      -((computePair cfg i e (out, cnt)).1 (3 * tag0 cfg i + c) -
        out (3 * tag0 cfg i + c)) := by
  rw [computePair_apply, computePair_apply]
  unfold computePairAmt
  by_cases h1 : rsqOf cfg i e.j < cfg.cutsq (cfg.type i) (cfg.type e.j) ∧
      ¬ rOf cfg i e.j < EPSILON
  · simp only [if_pos h1, if_pos hg]
    by_cases ht : tag0 cfg i = tag0 cfg e.j
    · rw [ht]
      rw [ind3 (tag0 cfg e.j) c hc, ind3 (tag0 cfg e.j) c hc, sel3_neg]
      ring
    · rw [ind3_ne (tag0 cfg e.j) (tag0 cfg i) c hc (fun h => ht h.symm),
        ind3 (tag0 cfg e.j) c hc,
        ind3 (tag0 cfg i) c hc,
        ind3_ne (tag0 cfg i) (tag0 cfg e.j) c hc (fun h => ht h),
        sel3_neg]
      ring
  · rw [if_neg h1, if_neg h1]
    ring

/-- Two particles in cutoff with Newton pairing off and the neighbor not
locally owned: only the i side is updated. -/
def cfgC6 : Cfg where
  nlocal := 1
  ntypes := 1
  x := fun i c => if i = 1 ∧ c = 0 then 1 / 2 else 0
  v := fun _ _ => 0
  type := fun _ => 1
  tag := fun i => i + 1
  setflag := fun _ _ => true
  cut := fun _ _ => 1
  cutsq := fun _ _ => 1
  a0 := fun _ _ => 1
  gamma := fun _ _ => 0
  sigma := fun _ _ => 0
  rand := fun _ => 0
  newton := false
  dt := 1
  msqrt := fun q => if q = 1 / 4 then 1 / 2 else 1
  boltz := 1
  temperature := 1
  cut_global := 1
  seed := 1
  mix_flag := 0
  ilist := [0]
  neigh := fun i => if i = 0 then [⟨1, 1⟩] else []

/-- Claim C6 counterexample: with newton_pair off and j a ghost
(j >= nlocal) the source skips the j-side update, so the amount
accumulated into the entries of j is zero while the i side receives a
nonzero force: the accumulated amounts are not negations of each other. -/
theorem C6_counterexample :
    ¬ ((computePair cfgC6 0 ⟨1, 1⟩ (zeroVec, 0)).1 (3 * tag0 cfgC6 1 + 0) -
          zeroVec (3 * tag0 cfgC6 1 + 0) =
        -((computePair cfgC6 0 ⟨1, 1⟩ (zeroVec, 0)).1 (3 * tag0 cfgC6 0 + 0) -
          zeroVec (3 * tag0 cfgC6 0 + 0))) := by
  have hj : (computePair cfgC6 0 ⟨1, 1⟩ (zeroVec, 0)).1 (3 * tag0 cfgC6 1 + 0) = 0 := by
    norm_num [computePair, computeFpair, addAt, updf, rsqOf, rOf, rinvOf, wdOf,
      delOf, dtinvsqrtOf, tag0, cfgC6, zeroVec, EPSILON]
  have hi : (computePair cfgC6 0 ⟨1, 1⟩ (zeroVec, 0)).1 (3 * tag0 cfgC6 0 + 0) = -1/2 := by
    norm_num [computePair, computeFpair, addAt, updf, rsqOf, rOf, rinvOf, wdOf,
      delOf, dtinvsqrtOf, tag0, cfgC6, zeroVec, EPSILON]
  rw [hj, hi]
  norm_num [zeroVec]

/-- Newton-on variant of cfgC6. -/
def cfgC6w : Cfg := { cfgC6 with newton := true }

/-- Witness for C6_newton_antisym at a concrete configuration. -/
theorem C6_newton_antisym_witness :
    (cfgC6w.newton = true ∨ (1 : ℕ) < cfgC6w.nlocal) ∧
      (computePair cfgC6w 0 ⟨1, 1⟩ (zeroVec, 0)).1 (3 * tag0 cfgC6w 1 + 0) -
          zeroVec (3 * tag0 cfgC6w 1 + 0) =
        -((computePair cfgC6w 0 ⟨1, 1⟩ (zeroVec, 0)).1 (3 * tag0 cfgC6w 0 + 0) -
          zeroVec (3 * tag0 cfgC6w 0 + 0)) :=
  ⟨Or.inl rfl, C6_newton_antisym cfgC6w 0 ⟨1, 1⟩ zeroVec 0 0 (Or.inl rfl)
    (by decide)⟩

/-- PairDPDJung::single (lines 447-464), returning the pair
(energy, fforce): the shifted conservative energy and the force
magnitude written through the reference argument. -/
def single (cfg : Cfg) (itype jtype : ℕ) (rsq factor_dpd : ℚ) : ℚ × ℚ :=
  if cfg.msqrt rsq < EPSILON then (0, 0)
  else
    let rinv := 1 / cfg.msqrt rsq
    let wd := 1 - cfg.msqrt rsq / cfg.cut itype jtype
    let fforce := cfg.a0 itype jtype * wd * (factor_dpd * rinv)
    let phi := 1 / 2 * cfg.a0 itype jtype * cfg.cut itype jtype * (wd * wd)
    (factor_dpd * phi, fforce)

/-- Claim C7: for a pair whose separation r is below the degeneracy
epsilon, full-mode compute and step-mode compute_step add zero
contribution for that pair (the buffer and the random-stream position are
returned unchanged, so no Gaussian draw and no division by r happens),
and single returns energy 0 with force 0. -/
theorem C7_degenerate_zero (cfg : Cfg) (input : StateVec) (i : ℕ)
    (e : NeighEntry) (out : StateVec) (cnt itype jtype : ℕ) (rsq f : ℚ)
    (h1 : rOf cfg i e.j < EPSILON) (h2 : cfg.msqrt rsq < EPSILON) :
    stepPair cfg input i e out = out ∧
      computePair cfg i e (out, cnt) = (out, cnt) ∧
      single cfg itype jtype rsq f = (0, 0) := by
  refine ⟨?_, ?_, ?_⟩
  · unfold stepPair
    split_ifs <;> rfl
  · unfold computePair
    split_ifs <;> rfl
  · unfold single
    rw [if_pos h2]

/-- Two coincident particles: rsq = 0 and the modelled square root of 0
is 0, which is below EPSILON. -/
def cfgC7 : Cfg := { cfgC6 with x := fun _ _ => 0, msqrt := fun _ => 0 }

/-- Witness for C7_degenerate_zero at a concrete configuration. -/
theorem C7_degenerate_zero_witness :
    rOf cfgC7 0 1 < EPSILON ∧
      stepPair cfgC7 inputC1 0 ⟨1, 1⟩ zeroVec = zeroVec ∧
      computePair cfgC7 0 ⟨1, 1⟩ (zeroVec, 0) = (zeroVec, 0) ∧
      single cfgC7 1 1 0 1 = (0, 0) := by
  have h : rOf cfgC7 0 1 < EPSILON := by
    norm_num [rOf, rsqOf, delOf, cfgC7, cfgC6, EPSILON]
  have h2 : cfgC7.msqrt 0 < EPSILON := by
    norm_num [cfgC7, cfgC6, EPSILON]
  have hmain := C7_degenerate_zero cfgC7 inputC1 0 ⟨1, 1⟩ zeroVec 0 1 1 0 1 h h2
  exact ⟨h, hmain.1, hmain.2.1, hmain.2.2⟩

/-- PairDPDJung::init_one (lines 325-337): fatal (modelled as none) when
the pair coefficients were never set; otherwise derives
sigma[i][j] = sqrt(2*boltz*temperature*gamma[i][j]), symmetrizes the
four tables, and returns cut[i][j]. -/
def init_one (cfg : Cfg) (i j : ℕ) : Option (Cfg × ℚ) :=
  if cfg.setflag i j = false then none
  else
    let sigma1 := upd2 cfg.sigma i j
      (cfg.msqrt (2 * cfg.boltz * cfg.temperature * cfg.gamma i j))
    some
      ({ cfg with
          cut := upd2 cfg.cut j i (cfg.cut i j)
          a0 := upd2 cfg.a0 j i (cfg.a0 i j)
          gamma := upd2 cfg.gamma j i (cfg.gamma i j)
          sigma := upd2 sigma1 j i (sigma1 i j) },
        cfg.cut i j)

/-- Claim C9: for a type pair with its coefficients set, init_one
derives the noise coefficient as exactly the square root of
2 * boltz * temperature * gamma[i][j] and assigns it symmetrically. -/
theorem C9_init_one_sigma (cfg : Cfg) (i j : ℕ)
    (h : cfg.setflag i j = true) :
    ∃ t : Cfg × ℚ, init_one cfg i j = some t ∧
      t.1.sigma i j =
        cfg.msqrt (2 * cfg.boltz * cfg.temperature * cfg.gamma i j) ∧
      t.1.sigma j i = t.1.sigma i j ∧ t.2 = cfg.cut i j := by
  unfold init_one
  rw [if_neg (by simp [h])]
  refine ⟨_, rfl, ?_, ?_, rfl⟩
  · simp [upd2]
  · simp [upd2]

/-- Witness for C9_init_one_sigma at a concrete configuration. -/
theorem C9_init_one_sigma_witness :
    cfgC2.setflag 1 2 = true ∧
      ∃ t : Cfg × ℚ, init_one cfgC2 1 2 = some t ∧
        t.1.sigma 1 2 =
          cfgC2.msqrt (2 * cfgC2.boltz * cfgC2.temperature * cfgC2.gamma 1 2) ∧
        t.1.sigma 2 1 = t.1.sigma 1 2 ∧ t.2 = cfgC2.cut 1 2 :=
  ⟨rfl, C9_init_one_sigma cfgC2 1 2 rfl⟩

/-- One scalar of the persisted coefficient block: an int or a double. -/
inductive RItem where
  | rint : ℤ → RItem
  | rdbl : ℚ → RItem
deriving DecidableEq

/-- The ordered traversal (i from 1 to ntypes, j from i to ntypes) used
by both write_restart and read_restart. -/
def pairList (n : ℕ) : List (ℕ × ℕ) :=
  (List.range n).flatMap (fun i0 =>
    (List.range (n - i0)).map (fun d => (i0 + 1, i0 + 1 + d)))

/-- PairDPDJung::write_restart_settings (lines 392-398): temperature,
global cutoff, seed, mixing flag, in that order. -/
def write_restart_settings (cfg : Cfg) : List RItem :=
  [RItem.rdbl cfg.temperature, RItem.rdbl cfg.cut_global,
   RItem.rint cfg.seed, RItem.rint cfg.mix_flag]

/-- One pair block of PairDPDJung::write_restart (lines 348-356): the
setflag integer, then a0, gamma, cut in that fixed order when the flag
is set, nothing more when it is not. -/
def writePairEntry (cfg : Cfg) (p : ℕ × ℕ) : List RItem :=
  RItem.rint (if cfg.setflag p.1 p.2 then 1 else 0) ::
    (if cfg.setflag p.1 p.2 then
      [RItem.rdbl (cfg.a0 p.1 p.2), RItem.rdbl (cfg.gamma p.1 p.2),
       RItem.rdbl (cfg.cut p.1 p.2)]
    else [])

/-- PairDPDJung::write_restart (lines 343-357). -/
def write_restart (cfg : Cfg) : List RItem :=
  write_restart_settings cfg ++ (pairList cfg.ntypes).flatMap (writePairEntry cfg)

/-- The freshly allocated tables read_restart fills (allocate, lines
219-239, leaves setflag zero and sigma/gamma zero). -/
structure RTable where
  setflag : ℕ → ℕ → Bool
  a0 : ℕ → ℕ → ℚ
  gamma : ℕ → ℕ → ℚ
  cut : ℕ → ℕ → ℚ
  temperature : ℚ
  cut_global : ℚ
  seed : ℤ
  mix_flag : ℤ

def emptyTable : RTable where
  setflag := fun _ _ => false
  a0 := fun _ _ => 0
  gamma := fun _ _ => 0
  cut := fun _ _ => 0
  temperature := 0
  cut_global := 0
  seed := 0
  mix_flag := 0

def readInt : List RItem → Option (ℤ × List RItem)
  | RItem.rint z :: rest => some (z, rest)
  | _ => none

def readDbl : List RItem → Option (ℚ × List RItem)
  | RItem.rdbl q :: rest => some (q, rest)
  | _ => none

/-- The pair loop of PairDPDJung::read_restart (lines 371-385): read the
flag of each pair in order; when it is nonzero, read a0, gamma and cut,
consuming nothing for unset pairs. -/
def readPairs : RTable → List (ℕ × ℕ) → List RItem →
    Option (RTable × List RItem)
  | t, [], s => some (t, s)
  | t, p :: ps, s =>
    match readInt s with
    | none => none
    | some (flag, s1) =>
      if flag ≠ 0 then
        match readDbl s1 with
        | none => none
        | some (av, s2) =>
          match readDbl s2 with
          | none => none
          | some (gv, s3) =>
            match readDbl s3 with
            | none => none
            | some (cv, s4) =>
              readPairs
                { t with
                    setflag := upd2 t.setflag p.1 p.2 true
                    a0 := upd2 t.a0 p.1 p.2 av
                    gamma := upd2 t.gamma p.1 p.2 gv
                    cut := upd2 t.cut p.1 p.2 cv }
                ps s4
      else readPairs { t with setflag := upd2 t.setflag p.1 p.2 false } ps s1

/-- PairDPDJung::read_restart_settings (lines 404-422). -/
def read_restart_settings (s : List RItem) : Option (RTable × List RItem) :=
  match readDbl s with
  | none => none
  | some (tv, s1) =>
    match readDbl s1 with
    | none => none
    | some (cv, s2) =>
      match readInt s2 with
      | none => none
      | some (sv, s3) =>
        match readInt s3 with
        | none => none
        | some (mv, s4) =>
          some
            ({ emptyTable with
                temperature := tv, cut_global := cv, seed := sv,
                mix_flag := mv }, s4)

/-- PairDPDJung::read_restart (lines 363-386). -/
def read_restart (n : ℕ) (s : List RItem) : Option (RTable × List RItem) :=
  match read_restart_settings s with
  | none => none
  | some (t, s1) => readPairs t (pairList n) s1

/-- The table update performed for one pair when reading back what
write_restart produced for that pair. -/
def applyPair (cfg : Cfg) (t : RTable) (p : ℕ × ℕ) : RTable :=
  if cfg.setflag p.1 p.2 then
    { t with
        setflag := upd2 t.setflag p.1 p.2 true
        a0 := upd2 t.a0 p.1 p.2 (cfg.a0 p.1 p.2)
        gamma := upd2 t.gamma p.1 p.2 (cfg.gamma p.1 p.2)
        cut := upd2 t.cut p.1 p.2 (cfg.cut p.1 p.2) }
  else { t with setflag := upd2 t.setflag p.1 p.2 false }

theorem readPairs_write (cfg : Cfg) (ps : List (ℕ × ℕ)) :
    ∀ (t : RTable) (rest : List RItem),
      readPairs t ps (ps.flatMap (writePairEntry cfg) ++ rest) =
        some (ps.foldl (applyPair cfg) t, rest) := by
  induction ps with
  | nil =>
    intro t rest
    simp [readPairs]
  | cons p ps ih =>
    intro t rest
    by_cases h : cfg.setflag p.1 p.2
    · simp only [List.flatMap_cons, writePairEntry, if_pos h, List.cons_append,
        List.append_assoc, readPairs, readInt, readDbl, List.foldl_cons]
      rw [if_pos (by norm_num)]
      simp only [applyPair, if_pos h]
      exact ih _ rest
    · simp only [List.flatMap_cons, writePairEntry, if_neg h, List.cons_append,
        List.nil_append, List.append_assoc, readPairs, readInt, List.foldl_cons]
      rw [if_neg (by norm_num)]
      simp only [applyPair, if_neg h]
      exact ih _ rest

theorem applyPair_untouched (cfg : Cfg) (t : RTable) (p : ℕ × ℕ) (a b : ℕ)
    (hf : ¬ cfg.setflag a b = true) :
    (applyPair cfg t p).a0 a b = t.a0 a b ∧
      (applyPair cfg t p).gamma a b = t.gamma a b ∧
      (applyPair cfg t p).cut a b = t.cut a b := by
  unfold applyPair
  by_cases hsp : cfg.setflag p.1 p.2
  · have hne : ¬ (a = p.1 ∧ b = p.2) := by
      intro hcon
      apply hf
      rw [hcon.1, hcon.2]
      exact hsp
    simp [hsp, upd2, hne]
  · simp [hsp]

theorem applyPair_at (cfg : Cfg) (t : RTable) (p : ℕ × ℕ) :
    (applyPair cfg t p).setflag p.1 p.2 = cfg.setflag p.1 p.2 ∧
      (cfg.setflag p.1 p.2 = true →
        (applyPair cfg t p).a0 p.1 p.2 = cfg.a0 p.1 p.2 ∧
        (applyPair cfg t p).gamma p.1 p.2 = cfg.gamma p.1 p.2 ∧
        (applyPair cfg t p).cut p.1 p.2 = cfg.cut p.1 p.2) := by
  unfold applyPair
  by_cases hsp : cfg.setflag p.1 p.2 <;> simp [hsp, upd2]

theorem applyPair_other (cfg : Cfg) (t : RTable) (p : ℕ × ℕ) (a b : ℕ)
    (hp : ¬ (a, b) = p) :
    (applyPair cfg t p).setflag a b = t.setflag a b ∧
      (applyPair cfg t p).a0 a b = t.a0 a b ∧
      (applyPair cfg t p).gamma a b = t.gamma a b ∧
      (applyPair cfg t p).cut a b = t.cut a b := by
  have hne : ¬ (a = p.1 ∧ b = p.2) := by
    intro hcon
    exact hp (Prod.ext hcon.1 hcon.2)
  unfold applyPair
  by_cases hsp : cfg.setflag p.1 p.2 <;> simp [hsp, upd2, hne]

theorem foldl_applyPair_scalars (cfg : Cfg) (ps : List (ℕ × ℕ)) :
    ∀ t : RTable,
      (ps.foldl (applyPair cfg) t).temperature = t.temperature ∧
      (ps.foldl (applyPair cfg) t).cut_global = t.cut_global ∧
      (ps.foldl (applyPair cfg) t).seed = t.seed ∧
      (ps.foldl (applyPair cfg) t).mix_flag = t.mix_flag := by
  induction ps with
  | nil => simp
  | cons p ps ih =>
    intro t
    obtain ⟨i1, i2, i3, i4⟩ := ih (applyPair cfg t p)
    have hstep : (applyPair cfg t p).temperature = t.temperature ∧
        (applyPair cfg t p).cut_global = t.cut_global ∧
        (applyPair cfg t p).seed = t.seed ∧
        (applyPair cfg t p).mix_flag = t.mix_flag := by
      unfold applyPair
      split_ifs <;> exact ⟨rfl, rfl, rfl, rfl⟩
    refine ⟨?_, ?_, ?_, ?_⟩ <;>
      rw [List.foldl_cons]
    · rw [i1, hstep.1]
    · rw [i2, hstep.2.1]
    · rw [i3, hstep.2.2.1]
    · rw [i4, hstep.2.2.2]

theorem foldl_applyPair_fields (cfg : Cfg) (ps : List (ℕ × ℕ)) :
    ∀ (t : RTable) (a b : ℕ),
      ((ps.foldl (applyPair cfg) t).setflag a b =
        if (a, b) ∈ ps then cfg.setflag a b else t.setflag a b) ∧
      ((ps.foldl (applyPair cfg) t).a0 a b =
        if (a, b) ∈ ps ∧ cfg.setflag a b = true then cfg.a0 a b else t.a0 a b) ∧
      ((ps.foldl (applyPair cfg) t).gamma a b =
        if (a, b) ∈ ps ∧ cfg.setflag a b = true then cfg.gamma a b else t.gamma a b) ∧
      ((ps.foldl (applyPair cfg) t).cut a b =
        if (a, b) ∈ ps ∧ cfg.setflag a b = true then cfg.cut a b else t.cut a b) := by
  induction ps with
  | nil => simp
  | cons p ps ih =>
    intro t a b
    obtain ⟨ih1, ih2, ih3, ih4⟩ := ih (applyPair cfg t p) a b
    by_cases hm : (a, b) ∈ ps
    · have hmem : (a, b) ∈ p :: ps := List.mem_cons_of_mem p hm
      refine ⟨?_, ?_, ?_, ?_⟩
      · rw [List.foldl_cons, ih1, if_pos hm, if_pos hmem]
      · rw [List.foldl_cons, ih2]
        by_cases hf : cfg.setflag a b = true
        · rw [if_pos ⟨hm, hf⟩, if_pos ⟨hmem, hf⟩]
        · rw [if_neg (fun hcon => hf hcon.2), if_neg (fun hcon => hf hcon.2),
            (applyPair_untouched cfg t p a b hf).1]
      · rw [List.foldl_cons, ih3]
        by_cases hf : cfg.setflag a b = true
        · rw [if_pos ⟨hm, hf⟩, if_pos ⟨hmem, hf⟩]
        · rw [if_neg (fun hcon => hf hcon.2), if_neg (fun hcon => hf hcon.2),
            (applyPair_untouched cfg t p a b hf).2.1]
      · rw [List.foldl_cons, ih4]
        by_cases hf : cfg.setflag a b = true
        · rw [if_pos ⟨hm, hf⟩, if_pos ⟨hmem, hf⟩]
        · rw [if_neg (fun hcon => hf hcon.2), if_neg (fun hcon => hf hcon.2),
            (applyPair_untouched cfg t p a b hf).2.2]
    · by_cases hp : (a, b) = p
      · obtain ⟨ha, hb⟩ := Prod.ext_iff.mp hp
        simp only at ha hb
        subst ha
        subst hb
        have hmem : (p.1, p.2) ∈ p :: ps := by
          rw [hp]
          exact List.mem_cons_self p ps
        refine ⟨?_, ?_, ?_, ?_⟩
        · rw [List.foldl_cons, ih1, if_neg hm, if_pos hmem,
            (applyPair_at cfg t p).1]
        · rw [List.foldl_cons, ih2, if_neg (fun hcon => hm hcon.1)]
          by_cases hf : cfg.setflag p.1 p.2 = true
          · rw [if_pos ⟨hmem, hf⟩, ((applyPair_at cfg t p).2 hf).1]
          · rw [if_neg (fun hcon => hf hcon.2),
              (applyPair_untouched cfg t p p.1 p.2 hf).1]
        · rw [List.foldl_cons, ih3, if_neg (fun hcon => hm hcon.1)]
          by_cases hf : cfg.setflag p.1 p.2 = true
          · rw [if_pos ⟨hmem, hf⟩, ((applyPair_at cfg t p).2 hf).2.1]
          · rw [if_neg (fun hcon => hf hcon.2),
              (applyPair_untouched cfg t p p.1 p.2 hf).2.1]
        · rw [List.foldl_cons, ih4, if_neg (fun hcon => hm hcon.1)]
          by_cases hf : cfg.setflag p.1 p.2 = true
          · rw [if_pos ⟨hmem, hf⟩, ((applyPair_at cfg t p).2 hf).2.2]
          · rw [if_neg (fun hcon => hf hcon.2),
              (applyPair_untouched cfg t p p.1 p.2 hf).2.2]
      · have hmem : ¬ (a, b) ∈ p :: ps := by
          intro hcon
          rcases List.mem_cons.mp hcon with h | h
          exacts [hp h, hm h]
        obtain ⟨o1, o2, o3, o4⟩ := applyPair_other cfg t p a b hp
        refine ⟨?_, ?_, ?_, ?_⟩
        · rw [List.foldl_cons, ih1, if_neg hm, if_neg hmem, o1]
        · rw [List.foldl_cons, ih2, if_neg (fun hcon => hm hcon.1),
            if_neg (fun hcon => hmem hcon.1), o2]
        · rw [List.foldl_cons, ih3, if_neg (fun hcon => hm hcon.1),
            if_neg (fun hcon => hmem hcon.1), o3]
        · rw [List.foldl_cons, ih4, if_neg (fun hcon => hm hcon.1),
            if_neg (fun hcon => hmem hcon.1), o4]

/-- Claim C8: writing the settings and the pair-parameter table and
reading the stream back is a round trip: the whole stream is consumed,
each pair contributes exactly one flag (plus three doubles only when
set), an unset pair reads back as unset with no coefficient items
consumed for it, and a set pair reads back its exact a0, gamma and cut
values. -/
theorem C8_restart_roundtrip (cfg : Cfg) :
    ∃ t : RTable × List RItem,
      read_restart cfg.ntypes (write_restart cfg) = some t ∧
      t.2 = [] ∧
      t.1.temperature = cfg.temperature ∧
      t.1.cut_global = cfg.cut_global ∧
      t.1.seed = cfg.seed ∧
      t.1.mix_flag = cfg.mix_flag ∧
      ∀ p ∈ pairList cfg.ntypes,
        t.1.setflag p.1 p.2 = cfg.setflag p.1 p.2 ∧
        (cfg.setflag p.1 p.2 = true →
          t.1.a0 p.1 p.2 = cfg.a0 p.1 p.2 ∧
          t.1.gamma p.1 p.2 = cfg.gamma p.1 p.2 ∧
          t.1.cut p.1 p.2 = cfg.cut p.1 p.2) := by
  have hsettings : read_restart cfg.ntypes (write_restart cfg) =
      readPairs
        { emptyTable with
            temperature := cfg.temperature, cut_global := cfg.cut_global,
            seed := cfg.seed, mix_flag := cfg.mix_flag }
        (pairList cfg.ntypes)
        ((pairList cfg.ntypes).flatMap (writePairEntry cfg)) := by
    simp [read_restart, write_restart, write_restart_settings,
      read_restart_settings, readDbl, readInt]
  rw [hsettings,
    ← List.append_nil ((pairList cfg.ntypes).flatMap (writePairEntry cfg)),
    readPairs_write]
  obtain ⟨s1, s2, s3, s4⟩ := foldl_applyPair_scalars cfg (pairList cfg.ntypes)
    { emptyTable with
        temperature := cfg.temperature, cut_global := cfg.cut_global,
        seed := cfg.seed, mix_flag := cfg.mix_flag }
  refine ⟨_, rfl, rfl, s1, s2, s3, s4, ?_⟩
  intro p hp
  obtain ⟨h1, h2, h3, h4⟩ := foldl_applyPair_fields cfg (pairList cfg.ntypes)
    { emptyTable with
        temperature := cfg.temperature, cut_global := cfg.cut_global,
        seed := cfg.seed, mix_flag := cfg.mix_flag } p.1 p.2
  have hp2 : (p.1, p.2) ∈ pairList cfg.ntypes := by
    simpa using hp
  refine ⟨?_, ?_⟩
  · rw [h1, if_pos hp2]
  · intro hf
    exact ⟨by rw [h2, if_pos ⟨hp2, hf⟩], by rw [h3, if_pos ⟨hp2, hf⟩],
      by rw [h4, if_pos ⟨hp2, hf⟩]⟩

/-- Dot product of the first n entries, modelling Eigen adjoint-products
and squared norms on vectors of length n. -/
def dotN (n : ℕ) (u v : StateVec) : ℚ :=
  ((List.range n).map (fun k => u k * v k)).sum

/-- Entry of the Krylov basis: Vn.col(j), with zero for a column that
was never appended. -/
def colAt (V : List StateVec) (j : ℕ) : StateVec := V.getD j zeroVec

/-- Solves one upper step of Gaussian elimination: find the first row
with a nonzero leading coefficient. -/
def findPivot : List (List ℚ) → Option (List ℚ × List (List ℚ))
  | [] => none
  | r :: rs =>
    if r.headD 0 ≠ 0 then some (r, rs)
    else
      match findPivot rs with
      | some (p, rest) => some (p, r :: rest)
      | none => none

/-- Eliminates the leading column of a row against the pivot row and
drops that column. -/
def elimRow (p r : List ℚ) : List ℚ :=
  List.zipWith (fun x y => x - (r.headD 0 / p.headD 0) * y) r.tail p.tail

/-- Gaussian elimination with exact rational arithmetic on augmented
rows, with explicit fuel (the row count); none models the fatal singular
case of the spec. -/
def solveLinAux : ℕ → List (List ℚ) → Option (List ℚ)
  | 0, _ => some []
  | fuel + 1, rows =>
    match findPivot rows with
    | none => none
    | some (p, rest) =>
      match solveLinAux fuel (rest.map (elimRow p)) with
      | none => none
      | some xs =>
        some (((p.tail.getLastD 0 -
          (List.zipWith (fun x y => x * y) p.tail.dropLast xs).sum) /
            p.headD 0) :: xs)

/-- Solves A y = b for the augmented rows (each row of A with its b entry
appended); none when the matrix is singular. -/
def solveLin (rows : List (List ℚ)) : Option (List ℚ) :=
  solveLinAux rows.length rows

/-- The k-by-k Hessenberg matrix of compute_inverse (lines 599-609):
alpha[i+1] on the diagonal and beta[max(i,j)] on the two
off-diagonals. -/
def hkMatrix (alpha beta : ℕ → ℚ) (k : ℕ) : List (List ℚ) :=
  (List.range k).map (fun i =>
    (List.range k).map (fun j =>
      if i = j then alpha (i + 1)
      else if i = j + 1 ∨ j = i + 1 then beta (max i j) else 0))

/-- The product of the inverse Hessenberg matrix with the first canonical
basis vector (lines 612-617), obtained as the exact solution of
Hk y = e1; the Eigen dense inverse is fatal on a singular matrix per the
spec failure semantics, modelled as none. -/
def hkSolve (alpha beta : ℕ → ℚ) (k : ℕ) : Option (List ℚ) :=
  solveLin (List.zipWith (fun row bb => row ++ [bb]) (hkMatrix alpha beta k)
    ((1 : ℚ) :: List.replicate (k - 1) 0))

/-- The per-solve state of the Lanczos loop in compute_inverse: the
residual vector rk, the Krylov basis Vn, the alpha and beta coefficient
arrays, the saved approximate solution xk_save, the latched singular
failure flag, and a counter of compute_step applications. -/
structure LzCore where
  rk : StateVec
  V : List StateVec
  alpha : ℕ → ℚ
  beta : ℕ → ℚ
  xkSave : StateVec
  singular : Bool
  nApplies : ℕ

/-- The state before the main loop (lines 561-582): the input is
normalized into the first basis column, the operator is applied once to
a zeroed residual, and alpha[1] is the first projection. -/
def lzInit (cfg : Cfg) (b : StateVec) (size : ℕ) : LzCore :=
  let norm0 := cfg.msqrt (dotN size b b)
  let v1 : StateVec := fun m => b m / norm0
  let r1 := compute_step cfg v1 zeroVec
  { rk := r1
    V := [v1]
    alpha := updf (fun _ => 0) 1 (dotN size v1 r1)
    beta := fun _ => 0
    xkSave := zeroVec
    singular := false
    nApplies := 1 }

/-- The orthogonalized residual of iteration k (lines 586-588):
rk - alpha[k-1]*Vn.col(k-2), minus beta[k-2]*Vn.col(k-3) when k > 2. -/
def lzOrtho (k : ℕ) (s : LzCore) : StateVec := fun m =>
  s.rk m - s.alpha (k - 1) * colAt s.V (k - 2) m -
    (if 2 < k then s.beta (k - 2) * colAt s.V (k - 3) m else 0)

/-- One iteration of the main Lanczos loop (lines 585-633) on the core
state: orthogonalize, record beta[k-1], append the normalized residual
as the new basis column, apply the operator ON TOP of the residual
buffer (compute_step accumulates and rk is not zeroed first, exactly as
in the source), record alpha[k], then solve the small Hessenberg system
and save xk. The second component is the convergence delta norm of this
iteration when one is computed (k greater than 2 and the solve
succeeded). -/
def lzIterCore (cfg : Cfg) (size : ℕ) (norm0 : ℚ) (k : ℕ) (s : LzCore) :
    LzCore × Option ℚ :=
  let r1 := lzOrtho k s
  let b1 := cfg.msqrt (dotN size r1 r1)
  let beta1 := updf s.beta (k - 1) b1
  let vk : StateVec := fun m => r1 m / b1
  let V1 := s.V ++ [vk]
  let r2 := compute_step cfg vk r1
  let alpha1 := updf s.alpha k (dotN size vk r2)
  match hkSolve alpha1 beta1 k with
  | none =>
    ({ rk := r2, V := V1, alpha := alpha1, beta := beta1, xkSave := s.xkSave,
       singular := true, nApplies := s.nApplies + 1 }, none)
  | some y =>
    let xk : StateVec := fun m =>
      (((List.range k).map (fun jj => colAt V1 jj m * y.getD jj 0)).sum) * norm0
    if k = 2 then
      ({ rk := r2, V := V1, alpha := alpha1, beta := beta1, xkSave := xk,
         singular := s.singular, nApplies := s.nApplies + 1 }, none)
    else
      ({ rk := r2, V := V1, alpha := alpha1, beta := beta1, xkSave := xk,
         singular := s.singular, nApplies := s.nApplies + 1 },
        some (cfg.msqrt (dotN size (fun m => s.xkSave m - xk m)
          (fun m => s.xkSave m - xk m))))

/-- mLanczos = 10 (line 557). -/
def mLanczos : ℕ := 10

/-- tolLanczos = 0.00001 (line 558). -/
def tolLanczos : ℚ := 1 / 100000

/-- Full per-solve state: the core plus the list of iterations at which
convergence was reported by the printf (line 628). -/
structure LzState where
  core : LzCore
  reports : List ℕ

/-- One loop iteration on the full state, with the given tolerance. -/
def lzIter (cfg : Cfg) (size : ℕ) (norm0 tol : ℚ) (s : LzState) (k : ℕ) :
    LzState :=
  let c := lzIterCore cfg size norm0 k s.core
  { core := c.1
    reports := s.reports ++
      (match c.2 with
       | none => []
       | some d => if d < tol then [k] else []) }

/-- The state after the whole loop k = 2 .. mLanczos, with the given
tolerance. -/
def lanczosFinalT (cfg : Cfg) (b : StateVec) (tol : ℚ) : LzState :=
  let size := cfg.nlocal * 3
  let norm0 := cfg.msqrt (dotN size b b)
  (List.range' 2 (mLanczos - 1)).foldl (lzIter cfg size norm0 tol)
    { core := lzInit cfg b size, reports := [] }

/-- compute_inverse with the tolerance as a parameter: the final saved
solution is written to the output, none modelling the fatal singular
small-matrix inversion. The trailing diagnostic block of the source
(lines 640-645), which applies the operator once more only to print the
result, has no effect on the output and is not part of the solver
iteration. -/
def compute_inverseT (cfg : Cfg) (b : StateVec) (tol : ℚ) : Option StateVec :=
  let s := lanczosFinalT cfg b tol
  if s.core.singular then none else some s.core.xkSave

/-- PairDPDJung::compute_inverse (lines 553-651) with the hard-coded
tolerance. -/
def compute_inverse (cfg : Cfg) (b : StateVec) : Option StateVec :=
  compute_inverseT cfg b tolLanczos

theorem lzIterCore_nApplies (cfg : Cfg) (size : ℕ) (norm0 : ℚ) (k : ℕ)
    (s : LzCore) :
    (lzIterCore cfg size norm0 k s).1.nApplies = s.nApplies + 1 := by
  unfold lzIterCore
  dsimp only
  split
  · rfl
  · split <;> rfl

theorem lzIter_core (cfg : Cfg) (size : ℕ) (norm0 tol : ℚ) (s : LzState)
    (k : ℕ) :
    (lzIter cfg size norm0 tol s k).core = (lzIterCore cfg size norm0 k s.core).1 :=
  rfl

theorem lz_fold_core (cfg : Cfg) (size : ℕ) (norm0 tol : ℚ) (L : List ℕ) :
    ∀ s : LzState,
      ((L.foldl (lzIter cfg size norm0 tol) s).core) =
        L.foldl (fun c k => (lzIterCore cfg size norm0 k c).1) s.core := by
  induction L with
  | nil => intro s; rfl
  | cons k L ih =>
    intro s
    rw [List.foldl_cons, List.foldl_cons, ih, lzIter_core]

theorem lz_fold_applies (cfg : Cfg) (size : ℕ) (norm0 : ℚ) (L : List ℕ) :
    ∀ c : LzCore,
      (L.foldl (fun c k => (lzIterCore cfg size norm0 k c).1) c).nApplies =
        c.nApplies + L.length := by
  induction L with
  | nil => intro c; rfl
  | cons k L ih =>
    intro c
    rw [List.foldl_cons, ih, lzIterCore_nApplies, List.length_cons]
    omega

theorem lzIterCore_snd_at_two (cfg : Cfg) (size : ℕ) (norm0 : ℚ)
    (s : LzCore) :
    (lzIterCore cfg size norm0 2 s).2 = none := by
  unfold lzIterCore
  dsimp only
  split
  · rfl
  · simp

theorem lz_fold_reports (cfg : Cfg) (size : ℕ) (norm0 tol : ℚ) (L : List ℕ) :
    ∀ s : LzState, (∀ k ∈ L, 2 ≤ k ∧ k ≤ 10) →
      (∀ k ∈ s.reports, 3 ≤ k ∧ k ≤ 10) →
      ∀ k ∈ (L.foldl (lzIter cfg size norm0 tol) s).reports, 3 ≤ k ∧ k ≤ 10 := by
  induction L with
  | nil => intro s _ hs; exact hs
  | cons a L ih =>
    intro s hL hs
    rw [List.foldl_cons]
    refine ih _ (fun k hk => hL k (List.mem_cons_of_mem a hk)) ?_
    intro k hk
    unfold lzIter at hk
    dsimp only at hk
    rcases List.mem_append.mp hk with h | h
    · exact hs k h
    · cases hc : (lzIterCore cfg size norm0 a s.core).2 with
      | none =>
        rw [hc] at h
        simp at h
      | some d =>
        rw [hc] at h
        dsimp only at h
        by_cases hd : d < tol
        · rw [if_pos hd] at h
          simp at h
          subst h
          have hb := hL k (List.mem_cons_self k L)
          have hk2 : ¬ k = 2 := by
            intro h2
            subst h2
            rw [lzIterCore_snd_at_two] at hc
            exact Option.noConfusion hc
          omega
        · rw [if_neg hd] at h
          simp at h

/-- Claim C5: the Krylov solver always performs the full fixed budget of
mLanczos = 10 operator applications independently of the right-hand side
and of the tolerance; the result is unchanged under any tolerance value,
so the convergence test never terminates the loop early and is only
reported (and only at iterations k between 3 and 10); the returned
solution, when the solve does not fail, is the saved xk of the final
iteration; and the only failure is the singular small-matrix
inversion. -/
theorem C5_solver_budget (cfg : Cfg) (b : StateVec) (t t' : ℚ) :
    mLanczos = 10 ∧
      (lanczosFinalT cfg b t).core.nApplies = mLanczos ∧
      compute_inverseT cfg b t = compute_inverseT cfg b t' ∧
      (compute_inverse cfg b = none ↔
        (lanczosFinalT cfg b tolLanczos).core.singular = true) ∧
      (compute_inverse cfg b = none ∨
        compute_inverse cfg b =
          some (lanczosFinalT cfg b tolLanczos).core.xkSave) ∧
      (∀ k ∈ (lanczosFinalT cfg b t).reports, 3 ≤ k ∧ k ≤ mLanczos) := by
  refine ⟨rfl, ?_, ?_, ?_, ?_, ?_⟩
  · simp only [lanczosFinalT]
    rw [lz_fold_core, lz_fold_applies]
    simp [lzInit, mLanczos]
  · simp only [compute_inverseT, lanczosFinalT]
    rw [lz_fold_core, lz_fold_core]
  · by_cases hs : (lanczosFinalT cfg b tolLanczos).core.singular = true
    · simp [compute_inverse, compute_inverseT, hs]
    · simp [compute_inverse, compute_inverseT, hs]
  · by_cases hs : (lanczosFinalT cfg b tolLanczos).core.singular = true
    · left
      simp [compute_inverse, compute_inverseT, hs]
    · right
      simp [compute_inverse, compute_inverseT, hs]
  · simp only [lanczosFinalT, mLanczos]
    apply lz_fold_reports
    · intro k hk
      have hm := List.mem_range'_1.mp hk
      omega
    · intro k hk
      simp at hk

theorem lzIterCore_rk (cfg : Cfg) (size : ℕ) (norm0 : ℚ) (k : ℕ)
    (s : LzCore) :
    (lzIterCore cfg size norm0 k s).1.rk =
      compute_step cfg
        (fun m => lzOrtho k s m /
          cfg.msqrt (dotN size (lzOrtho k s) (lzOrtho k s)))
        (lzOrtho k s) := by
  unfold lzIterCore
  dsimp only
  split
  · rfl
  · split <;> rfl

theorem lzIterCore_V (cfg : Cfg) (size : ℕ) (norm0 : ℚ) (k : ℕ)
    (s : LzCore) :
    (lzIterCore cfg size norm0 k s).1.V =
      s.V ++ [fun m => lzOrtho k s m /
        cfg.msqrt (dotN size (lzOrtho k s) (lzOrtho k s))] := by
  unfold lzIterCore
  dsimp only
  split
  · rfl
  · split <;> rfl

/-- The per-solve state after the loop iterations k = 2 .. kmax. -/
def lanczosStateAt (cfg : Cfg) (b : StateVec) (tol : ℚ) (kmax : ℕ) : LzState :=
  (List.range' 2 (kmax - 1)).foldl
    (lzIter cfg (cfg.nlocal * 3) (cfg.msqrt (dotN (cfg.nlocal * 3) b b)) tol)
    { core := lzInit cfg b (cfg.nlocal * 3), reports := [] }

/-- Two owned particles with one in-cutoff friction pair, identity tags,
and a modelled square root exact on every value the first two solver
iterations need. -/
def cfgC3 : Cfg where
  nlocal := 2
  ntypes := 1
  x := fun i c => if i = 1 ∧ c = 0 then 1 else 0
  v := fun _ _ => 0
  type := fun _ => 1
  tag := fun i => i + 1
  setflag := fun _ _ => true
  cut := fun _ _ => 2
  cutsq := fun _ _ => 2
  a0 := fun _ _ => 0
  gamma := fun _ _ => 1
  sigma := fun _ _ => 0
  rand := fun _ => 0
  newton := true
  dt := 2
  msqrt := fun q => if q = 1 then 1 else if q = 1 / 16 then 1 / 4 else 0
  boltz := 1
  temperature := 1
  cut_global := 2
  seed := 1
  mix_flag := 0
  ilist := [0, 1]
  neigh := fun i => if i = 0 then [⟨1, 1⟩] else []

/-- Claim C3 refuted by evaluation: at iteration k = 2 of
compute_inverse on cfgC3 with right-hand side e0, the residual vector r
from which alpha[2] is computed differs from the step operator applied
to v_2 alone, because compute_step accumulates on top of the
orthogonalized residual still stored in rk (the source never zeroes rk
before the call, although its own comment at line 593 states
rk = A_FT * Vn.col(k-1)). -/
theorem C3_residual_not_operator_image :
    (lanczosStateAt cfgC3 inputC1 tolLanczos 2).core.rk 3 ≠
      compute_step cfgC3
        (colAt (lanczosStateAt cfgC3 inputC1 tolLanczos 2).core.V 1)
        zeroVec 3 := by
  have hcore : (lanczosStateAt cfgC3 inputC1 tolLanczos 2).core =
      (lzIterCore cfgC3 (cfgC3.nlocal * 3)
        (cfgC3.msqrt (dotN (cfgC3.nlocal * 3) inputC1 inputC1)) 2
        (lzInit cfgC3 inputC1 (cfgC3.nlocal * 3))).1 := by
    unfold lanczosStateAt
    rw [lz_fold_core]
    rfl
  rw [hcore, lzIterCore_rk, lzIterCore_V]
  have hcol : colAt ((lzInit cfgC3 inputC1 (cfgC3.nlocal * 3)).V ++
        [fun m => lzOrtho 2 (lzInit cfgC3 inputC1 (cfgC3.nlocal * 3)) m /
          cfgC3.msqrt (dotN (cfgC3.nlocal * 3)
            (lzOrtho 2 (lzInit cfgC3 inputC1 (cfgC3.nlocal * 3)))
            (lzOrtho 2 (lzInit cfgC3 inputC1 (cfgC3.nlocal * 3))))]) 1 =
      (fun m => lzOrtho 2 (lzInit cfgC3 inputC1 (cfgC3.nlocal * 3)) m /
        cfgC3.msqrt (dotN (cfgC3.nlocal * 3)
          (lzOrtho 2 (lzInit cfgC3 inputC1 (cfgC3.nlocal * 3)))
          (lzOrtho 2 (lzInit cfgC3 inputC1 (cfgC3.nlocal * 3))))) := rfl
  rw [hcol, compute_step_apply, compute_step_apply]
  have hr : lzOrtho 2 (lzInit cfgC3 inputC1 (cfgC3.nlocal * 3)) 3 = -(1 / 4) := by
    norm_num [lzOrtho, lzInit, colAt, compute_step_apply, stepAtomAmt, identAmt,
      stepPairAmt, stepFpair, stepDot, rsqOf, rOf, rinvOf, wdOf, delOf, preOf,
      tag0, updf, cfgC3, inputC1, zeroVec, EPSILON, dotN, List.range_succ,
      List.range_zero, List.map_append, List.sum_append]
  rw [hr]
  intro hEq
  have h2 := add_right_cancel hEq
  simp [zeroVec] at h2

end USERGLE
